import Mathlib

/-!
Verification of the kairo compiler core (parser expression layer, semantic
analysis, Rust code generation) against its specification.

Strings are modelled as `List Char`; the Rust `HashMap` tables as
association lists (`lookupA`/`insertA`); fallible functions return `Option`
or `Except`.  Every definition below mirrors the corresponding item in
`src/compiler/...` of the repository.
-/

namespace Kairo

/-- ASCII-ish whitespace predicate used by `str::trim` on the inputs we model. -/
def isWs (c : Char) : Bool :=
  c == ' ' || c == '\t' || c == '\n' || c == '\r'

/-- Right-trim: drop trailing whitespace. -/
def trimRight (cs : List Char) : List Char :=
  (cs.reverse.dropWhile isWs).reverse

/-- `str::trim`: drop leading and trailing whitespace. -/
def trimStr (cs : List Char) : List Char :=
  trimRight (cs.dropWhile isWs)

/-- `s.split('+')` from `parse_expr` in `src/compiler/parser/expr.rs`:
split on every literal `+`, keeping empty pieces; the empty string yields
one empty piece. -/
def splitPlus : List Char → List (List Char)
  | [] => [[]]
  | c :: cs =>
    if c = '+' then [] :: splitPlus cs
    else
      match splitPlus cs with
      | [] => [[c]]
      | p :: ps => (c :: p) :: ps

/-- Inverse construction used to state left-associativity: interleave the
pieces with a literal `+`. -/
def joinPlus : List (List Char) → List Char
  | [] => []
  | [t] => t
  | t :: ts => t ++ '+' :: joinPlus ts

/-- One step of decimal accumulation for `str::parse::<i64>` digits. -/
def digitStep (acc : Option Nat) (c : Char) : Option Nat :=
  acc.bind (fun n => if c.isDigit then some (n * 10 + (c.toNat - 48)) else none)

/-- Parse a non-empty all-digit string to its numeric value. -/
def parseDigits (cs : List Char) : Option Nat :=
  if cs.isEmpty then none else cs.foldl digitStep (some 0)

/-- `str::parse::<i64>`: optional single sign, then one or more ASCII
digits, rejecting values outside the signed-64-bit range. -/
def parseI64 (s : List Char) : Option Int :=
  match s with
  | '+' :: rest =>
    (parseDigits rest).bind fun n =>
      if n ≤ 9223372036854775807 then some (Int.ofNat n) else none
  | '-' :: rest =>
    (parseDigits rest).bind fun n =>
      if n ≤ 9223372036854775808 then some (-(Int.ofNat n : Int)) else none
  | _ =>
    (parseDigits s).bind fun n =>
      if n ≤ 9223372036854775807 then some (Int.ofNat n) else none

/-- `is_ident` from `src/compiler/parser/expr.rs`: first char ASCII
alphabetic or underscore, rest ASCII alphanumeric or underscore. -/
def isIdent : List Char → Bool
  | [] => false
  | c :: rest => (c.isAlpha || c == '_') && rest.all (fun d => d.isAlphanum || d == '_')

/-- `SourcePos` from `src/compiler/ast/span.rs` (1-based line and column). -/
structure SourcePos where
  line : Nat
  col : Nat
deriving DecidableEq, Repr

/-- `SourceSpan` from `src/compiler/ast/span.rs`; the Rust field `end` is
spelled `endPos` because `end` is a Lean keyword. -/
structure SourceSpan where
  start : SourcePos
  endPos : SourcePos
deriving DecidableEq, Repr

/-- `SourceSpan::single_line`. -/
def SourceSpan.single_line (line startCol endCol : Nat) : SourceSpan :=
  { start := { line := line, col := startCol }
    endPos := { line := line, col := endCol } }

/-- `Expr` from `src/compiler/ast/node.rs`. -/
inductive Expr where
  | StringLit (s : List Char) (span : SourceSpan)
  | IntLit (v : Int) (span : SourceSpan)
  | Ident (name : List Char) (span : SourceSpan)
  | BinaryAdd (l r : Expr) (span : SourceSpan)
deriving DecidableEq, Repr

/-- `Stmt` from `src/compiler/ast/node.rs`. -/
inductive Stmt where
  | Print (content : List Char) (span : SourceSpan)
  | Assign (name : List Char) (declMut : Bool) (expr : Expr) (span nameSpan : SourceSpan)
deriving DecidableEq, Repr

/-- `Program` is an ordered list of statements. -/
abbrev Program := List Stmt

/-- `parse_atom` from `src/compiler/parser/expr.rs`: a double-quoted string
literal, else a signed 64-bit integer literal, else an identifier, else a
syntax error (`none`). -/
def parseAtom (s : List Char) (lineNo : Nat) : Option Expr :=
  if s.head? == some '"' && s.getLast? == some '"' && decide (2 ≤ s.length) then
    some (.StringLit ((s.drop 1).dropLast) (SourceSpan.single_line lineNo 1 s.length))
  else
    match parseI64 s with
    | some v => some (.IntLit v (SourceSpan.single_line lineNo 1 s.length))
    | none =>
      if isIdent s then some (.Ident s (SourceSpan.single_line lineNo 1 s.length))
      else none

/-- The span arithmetic and node construction done by the loop body of
`parse_expr`: the composite node's span matches the Rust `match` on the
pair of operands. -/
def mkAdd (e rhs : Expr) (lineNo : Nat) : Expr :=
  let span :=
    match e, rhs with
    | .StringLit _ a, .StringLit _ b => SourceSpan.single_line lineNo a.start.col b.endPos.col
    | .StringLit _ a, _ => a
    | .IntLit _ a, _ => a
    | .Ident _ a, _ => a
    | .BinaryAdd _ _ a, _ => a
  .BinaryAdd e rhs span

/-- The `for part in parts.iter().skip(1)` loop of `parse_expr`. -/
def parseExprGo (e : Expr) (parts : List (List Char)) (lineNo : Nat) : Option Expr :=
  match parts with
  | [] => some e
  | p :: rest =>
    match parseAtom p lineNo with
    | none => none
    | some rhs => parseExprGo (mkAdd e rhs lineNo) rest lineNo

/-- `parse_expr` from `src/compiler/parser/expr.rs`: split on `+`, trim
each piece, parse a lone piece as an atom, otherwise fold the atoms
left-to-right into `BinaryAdd` nodes. -/
def parseExpr (s : List Char) (lineNo : Nat) : Option Expr :=
  match (splitPlus s).map trimStr with
  | [] => none
  | [p] => parseAtom p lineNo
  | p :: rest =>
    match parseAtom p lineNo with
    | none => none
    | some e => parseExprGo e rest lineNo

/-- `Mutability` from `src/compiler/semantics/analysis.rs`. -/
inductive Mutability where
  | Immutable
  | Mutable
deriving DecidableEq, Repr

/-- Association-list model of a Rust `HashMap` keyed by strings:
`HashMap::get`. -/
def lookupA {α : Type} (t : List (List Char × α)) (k : List Char) : Option α :=
  (t.find? (fun p => p.1 == k)).map (·.2)

/-- `HashMap::insert` on a key known to be absent (how Pass 1 and the
code generator use it): add the binding. -/
def insertA {α : Type} (t : List (List Char × α)) (k : List Char) (v : α) :
    List (List Char × α) :=
  (k, v) :: t

/-- Drop every binding for key `k`. -/
def eraseKey {α : Type} (t : List (List Char × α)) (k : List Char) :
    List (List Char × α) :=
  t.filter (fun p => !(p.1 == k))

/-- Unconditional `HashMap::insert` (used by Pass 2 for `$` targets):
replace any existing binding. -/
def insertOver {α : Type} (t : List (List Char × α)) (k : List Char) (v : α) :
    List (List Char × α) :=
  (k, v) :: eraseKey t k

/-- The name→mutability symbol table (`SemanticInfo.vars`). -/
abbrev Table := List (List Char × Mutability)

/-- `SemanticInfo` from `src/compiler/semantics/analysis.rs`. -/
structure SemanticInfo where
  vars : Table
deriving DecidableEq, Repr

/-- The three semantic errors, keeping the data the rendered message is
built from (the Rust code pushes a rendered `String`; file and source text
only affect formatting, never which error is recorded). -/
inductive SemErr where
  | Redeclare (name : List Char) (nameSpan : SourceSpan)
  | AssignImmutable (name : List Char) (nameSpan : SourceSpan)
  | Undefined (name : List Char) (span : SourceSpan)
deriving DecidableEq, Repr

/-- One iteration of the Pass 1 loop of `check_semantics`
(declaration / mutability validation). -/
def pass1Step (acc : Table × List SemErr) (s : Stmt) : Table × List SemErr :=
  match s with
  | .Print _ _ => acc
  | .Assign name declMut _ _ nameSpan =>
    let existed := lookupA acc.1 name
    if declMut then
      match existed with
      | none => (insertA acc.1 name .Mutable, acc.2)
      | some _ => (acc.1, acc.2 ++ [.Redeclare name nameSpan])
    else
      match existed with
      | none => (insertA acc.1 name .Immutable, acc.2)
      | some .Immutable => (acc.1, acc.2 ++ [.AssignImmutable name nameSpan])
      | some .Mutable => acc

/-- Pass 1 run from a given accumulator. -/
def pass1From (acc : Table × List SemErr) (stmts : List Stmt) : Table × List SemErr :=
  stmts.foldl pass1Step acc

/-- Pass 1 of `check_semantics`, seeded with the empty table and no errors. -/
def pass1 (stmts : List Stmt) : Table × List SemErr :=
  pass1From ([], []) stmts

/-- `collect_undefined_idents` from `src/compiler/semantics/analysis.rs`:
append an undefined-variable error for every `Ident` not in `declared`,
in traversal order (left subtree before right). -/
def collectUndefined (e : Expr) (declared : Table) (errors : List SemErr) : List SemErr :=
  match e with
  | .Ident name span =>
    if (lookupA declared name).isNone then errors ++ [.Undefined name span] else errors
  | .BinaryAdd a b _ => collectUndefined b declared (collectUndefined a declared errors)
  | _ => errors

/-- One iteration of the Pass 2 loop of `check_semantics`
(use-before-declaration validation): scan the value expression, then
record the target name (`$` targets by unconditional insert, plain
targets only when absent). -/
def pass2Step (acc : Table × List SemErr) (s : Stmt) : Table × List SemErr :=
  match s with
  | .Print _ _ => acc
  | .Assign name declMut expr _ _ =>
    let errors := collectUndefined expr acc.1 acc.2
    if declMut then (insertOver acc.1 name .Mutable, errors)
    else if (lookupA acc.1 name).isSome then (acc.1, errors)
    else (insertA acc.1 name .Immutable, errors)

/-- Pass 2 run from a given accumulator. -/
def pass2From (acc : Table × List SemErr) (stmts : List Stmt) : Table × List SemErr :=
  stmts.foldl pass2Step acc

/-- `check_semantics` from `src/compiler/semantics/analysis.rs`: Pass 1
then Pass 2 over the same error vector; return the symbol table when no
error was recorded, otherwise all recorded errors. -/
def checkSemantics (program : Program) : Except (List SemErr) SemanticInfo :=
  let r1 := pass1From ([], []) program
  let r2 := pass2From ([], r1.2) program
  if r2.2.isEmpty then .ok ⟨r1.1⟩ else .error r2.2

/-- `escape` from `src/compiler/codegen/rust/imp.rs` is two sequential
`str::replace` calls; one replacement pass over the character list. -/
def replaceChar (cs : List Char) (c : Char) (r : List Char) : List Char :=
  cs.flatMap (fun x => if x = c then r else [x])

/-- `escape`: double every backslash, then escape every double quote. -/
def escape (s : List Char) : List Char :=
  replaceChar (replaceChar s '\\' ['\\', '\\']) '"' ['\\', '"']

/-- `gen_expr` from `src/compiler/codegen/rust/imp.rs`. -/
def genExpr (e : Expr) (vars : Table) : List Char :=
  match e with
  | .StringLit s _ => '"' :: (escape s ++ ['"'])
  | .IntLit v _ => (toString v).data
  | .Ident name _ =>
    match lookupA vars name with
    | some .Mutable => '*' :: (name ++ ".borrow()".data)
    | _ => name
  | .BinaryAdd a b _ =>
    '(' :: (genExpr a vars ++ " + ".data ++ genExpr b vars ++ [')'])

/-- One emitted fragment of `generate_rust`; each constructor corresponds
to exactly one `push_str` in the Rust source, and `renderLine` gives the
pushed text. -/
inductive GenLine where
  | UseRc
  | UseRefCell
  | FnMainOpen
  | PrintlnLine (content : List Char)
  | LetBind (name exprCode : List Char)
  | CellInit (name exprCode : List Char)
  | CellMut (name exprCode : List Char)
  | LetFallback (name exprCode : List Char)
  | FnMainClose
deriving DecidableEq, Repr

/-- The exact text each `push_str` in `generate_rust` emits. -/
def renderLine : GenLine → List Char
  | .UseRc => "use std::rc::Rc;\n".data
  | .UseRefCell => "use std::cell::RefCell;\n\n".data
  | .FnMainOpen => "fn main() \x7b\n".data
  | .PrintlnLine content => "    println!(\"".data ++ escape content ++ "\");\n".data
  | .LetBind name exprCode => "    let ".data ++ name ++ " = ".data ++ exprCode ++ ";\n".data
  | .CellInit name exprCode =>
    "    let ".data ++ name ++ " = Rc::new(RefCell::new(".data ++ exprCode ++ "));\n".data
  | .CellMut name exprCode =>
    "    *".data ++ name ++ ".borrow_mut() = ".data ++ exprCode ++ ";\n".data
  | .LetFallback name exprCode =>
    "    let ".data ++ name ++ " = ".data ++ exprCode
      ++ "; // (note) immutable redeclaration fallback\n".data
  | .FnMainClose => "\x7d\n".data

/-- The statement loop of `generate_rust`, with the `declared` map
(`HashMap<&str, bool>`, consulted only through `contains_key`) threaded
through; the `match (is_first, mutability, *decl_mut)` mirrors the Rust
decision table arm for arm. -/
def genStmtsGo (vars : Table) (declared : List (List Char × Bool)) :
    List Stmt → List GenLine
  | [] => []
  | .Print content _ :: rest => .PrintlnLine content :: genStmtsGo vars declared rest
  | .Assign name declMut expr _ _ :: rest =>
    let mutability := (lookupA vars name).getD .Immutable
    let isFirst := (lookupA declared name).isNone
    let exprCode := genExpr expr vars
    match isFirst, mutability, declMut with
    | true, .Mutable, true =>
      .CellInit name exprCode :: genStmtsGo vars (insertA declared name true) rest
    | true, .Immutable, false =>
      .LetBind name exprCode :: genStmtsGo vars (insertA declared name true) rest
    | false, .Mutable, _ =>
      .CellMut name exprCode :: genStmtsGo vars declared rest
    | false, .Immutable, _ =>
      .LetFallback name exprCode :: genStmtsGo vars declared rest
    | true, .Mutable, false =>
      .LetBind name exprCode :: genStmtsGo vars (insertA declared name true) rest
    | true, .Immutable, true =>
      .LetBind name exprCode :: genStmtsGo vars (insertA declared name true) rest

/-- `semantic.vars.values().any(|m| matches!(m, Mutability::Mutable))`. -/
def needsRc (vars : Table) : Bool :=
  vars.any (fun p => p.2 == .Mutable)

/-- `generate_rust` as the ordered list of emitted fragments. -/
def genLines (program : Program) (semantic : SemanticInfo) : List GenLine :=
  (if needsRc semantic.vars then [.UseRc, .UseRefCell] else [])
    ++ [.FnMainOpen]
    ++ genStmtsGo semantic.vars [] program
    ++ [.FnMainClose]

/-- `generate_rust` from `src/compiler/codegen/rust/imp.rs`: the full
output text, the concatenation of the pushed fragments in order. -/
def generateRust (program : Program) (semantic : SemanticInfo) : List Char :=
  (genLines program semantic).flatMap renderLine

/-- The `declares_mutable` flag of a statement (`false` for `Print`). -/
def declMutOf : Stmt → Bool
  | .Print _ _ => false
  | .Assign _ d _ _ _ => d

/-- The target name of an assignment statement. -/
def targetOf : Stmt → Option (List Char)
  | .Print _ _ => none
  | .Assign n _ _ _ _ => some n

/-- The `declares_mutable` flag of the first assignment to `n`, scanning
in statement order (spec-side notion for the first-assignment rule). -/
def firstDeclMut : List Stmt → List Char → Option Bool
  | [], _ => none
  | .Print _ _ :: rest, n => firstDeclMut rest n
  | .Assign m d _ _ _ :: rest, n => if m = n then some d else firstDeclMut rest n

/-- All identifier occurrences of an expression, in traversal order. -/
def identsOf : Expr → List (List Char × SourceSpan)
  | .Ident n sp => [(n, sp)]
  | .BinaryAdd a b _ => identsOf a ++ identsOf b
  | _ => []

/-- Spec-side description of the undefined-variable errors: walking the
statements in order with the set `seen` of target names of strictly
earlier assignment statements, an occurrence is flagged exactly when its
name is not in `seen`; print statements neither contribute targets nor
are checked. -/
def undefinedSpec (seen : List (List Char)) : List Stmt → List SemErr
  | [] => []
  | .Print _ _ :: rest => undefinedSpec seen rest
  | .Assign n _ e _ _ :: rest =>
    ((identsOf e).filter (fun q => !(seen.contains q.1))).map (fun q => .Undefined q.1 q.2)
      ++ undefinedSpec (seen ++ [n]) rest

/-- The span stored in an expression node. -/
def spanOf : Expr → SourceSpan
  | .StringLit _ sp => sp
  | .IntLit _ sp => sp
  | .Ident _ sp => sp
  | .BinaryAdd _ _ sp => sp

/-- The span rule the parser actually applies to a composite addition
node: the left operand's span, except that a string-literal pair spans
from the left literal's start column to the right literal's end column. -/
def addSpanRule (l r : Expr) (n : Nat) : SourceSpan :=
  match l, r with
  | .StringLit _ a, .StringLit _ b => SourceSpan.single_line n a.start.col b.endPos.col
  | _, _ => spanOf l

/-- Every `BinaryAdd` node of the expression carries the span `addSpanRule`
assigns it. -/
def SpanRuleOK (n : Nat) : Expr → Prop
  | .BinaryAdd l r sp => sp = addSpanRule l r n ∧ SpanRuleOK n l ∧ SpanRuleOK n r
  | _ => True

/-- Key distinctness for the association-list model of a `HashMap`
(a real `HashMap` cannot hold two bindings of one key). -/
abbrev keysNodup {α : Type} (t : List (List Char × α)) : Prop :=
  (t.map Prod.fst).Nodup

/-- The symbol table Pass 1 builds. -/
abbrev pass1Vars (stmts : List Stmt) : Table := (pass1 stmts).1

/-- The errors Pass 1 records. -/
abbrev pass1Errs (stmts : List Stmt) : List SemErr := (pass1 stmts).2

/-- The running "declared so far" map of Pass 2. -/
abbrev pass2Decl (stmts : List Stmt) : Table := (pass2From ([], []) stmts).1

/-- The errors Pass 2 records, taken on its own (seeded with no errors). -/
abbrev pass2Errs (stmts : List Stmt) : List SemErr := (pass2From ([], []) stmts).2

/-- All errors `check_semantics` discovers: Pass 1's then Pass 2's. -/
def allErrors (stmts : List Stmt) : List SemErr := pass1Errs stmts ++ pass2Errs stmts

/-- Whether an error is an undefined-variable error. -/
def isUndefErr : SemErr → Bool
  | .Undefined _ _ => true
  | _ => false

/-- Whether a statement is a `$`-marked assignment to `n`. -/
def isMutAssignTo (n : List Char) : Stmt → Bool
  | .Assign m d _ _ _ => m == n && d
  | .Print _ _ => false

/-- The mutability an assignment's `declares_mutable` flag yields. -/
def mutOfDecl (d : Bool) : Mutability := if d then .Mutable else .Immutable

/-- Whether an emitted fragment is part of the shared-mutable-cell
strategy: an `Rc`/`RefCell` import, a cell-initializing binding, or a
cell mutation. -/
def isCellLine : GenLine → Bool
  | .UseRc => true
  | .UseRefCell => true
  | .CellInit _ _ => true
  | .CellMut _ _ => true
  | _ => false

/-- No emitted fragment belongs to the shared-mutable-cell strategy. -/
def noCellLines (ls : List GenLine) : Bool := ls.all (fun l => !(isCellLine l))

/-- Every symbol-table entry is `Immutable`. -/
def allImmB (vars : Table) : Bool := vars.all (fun pr => pr.2 == .Immutable)

/-- Sample statements used by concrete witnesses: `x = 1`, `$x = 2`,
`x = x + 1`, `print("hello")`, `y = z + 1`. -/
def stmtXimm : Stmt :=
  .Assign "x".data false (.IntLit 1 (SourceSpan.single_line 1 5 5))
    (SourceSpan.single_line 1 1 5) (SourceSpan.single_line 1 1 1)

def stmtXmut : Stmt :=
  .Assign "x".data true (.IntLit 2 (SourceSpan.single_line 2 6 6))
    (SourceSpan.single_line 2 1 6) (SourceSpan.single_line 2 2 2)

def stmtXinc : Stmt :=
  .Assign "x".data false
    (.BinaryAdd (.Ident "x".data (SourceSpan.single_line 3 1 1))
      (.IntLit 1 (SourceSpan.single_line 3 1 1)) (SourceSpan.single_line 3 1 1))
    (SourceSpan.single_line 3 1 9) (SourceSpan.single_line 3 1 1)

def stmtPrintHello : Stmt := .Print "hello".data (SourceSpan.single_line 4 1 14)

def stmtYfromZ : Stmt :=
  .Assign "y".data false (.BinaryAdd (.Ident "z".data (SourceSpan.single_line 5 5 5))
      (.IntLit 1 (SourceSpan.single_line 5 5 5)) (SourceSpan.single_line 5 5 5))
    (SourceSpan.single_line 5 1 9) (SourceSpan.single_line 5 1 1)

/-! ## Parser lemmas -/

theorem splitPlus_ne_nil (s : List Char) : splitPlus s ≠ [] := by
  induction s with
  | nil => simp [splitPlus]
  | cons c cs ih =>
    simp only [splitPlus]
    split
    · simp
    · match h : splitPlus cs with
      | [] => simp
      | p :: ps => simp

theorem splitPlus_of_not_mem (s : List Char) (h : '+' ∉ s) : splitPlus s = [s] := by
  induction s with
  | nil => rfl
  | cons c cs ih =>
    simp only [List.mem_cons, not_or] at h
    simp only [splitPlus]
    rw [if_neg (by exact fun hc => h.1 hc.symm)]
    rw [ih h.2]

theorem splitPlus_append (t rest : List Char) (h : '+' ∉ t) :
    splitPlus (t ++ '+' :: rest) = t :: splitPlus rest := by
  induction t with
  | nil => simp [splitPlus]
  | cons c cs ih =>
    simp only [List.mem_cons, not_or] at h
    simp only [List.cons_append, splitPlus]
    rw [if_neg (by exact fun hc => h.1 hc.symm)]
    rw [show cs.append ('+' :: rest) = cs ++ '+' :: rest from rfl, ih h.2]

theorem splitPlus_joinPlus (t : List Char) (ts : List (List Char))
    (ht : '+' ∉ t) (hts : ∀ u ∈ ts, '+' ∉ u) :
    splitPlus (joinPlus (t :: ts)) = t :: ts := by
  induction ts generalizing t with
  | nil => exact splitPlus_of_not_mem t ht
  | cons u us ih =>
    show splitPlus (t ++ '+' :: joinPlus (u :: us)) = _
    rw [splitPlus_append _ _ ht]
    rw [ih u (hts u (by simp)) (fun v hv => hts v (by simp [hv]))]

theorem parseExprGo_foldl (ts : List (List Char)) (es : List Expr) (e : Expr) (n : Nat)
    (hes : List.Forall₂ (fun u r => parseAtom (trimStr u) n = some r) ts es) :
    parseExprGo e (ts.map trimStr) n = some (es.foldl (fun acc r => mkAdd acc r n) e) := by
  induction hes generalizing e with
  | nil => rfl
  | cons hu _ ih =>
    simp only [List.map_cons, parseExprGo, hu, List.foldl_cons]
    exact ih _

/-- C7: addition parsing is left-associative — for any non-empty sequence
of atom texts interleaved with `+`, the parse result is the left fold of
`BinaryAdd` (via `mkAdd`) over the atoms in order. -/
theorem parseExpr_left_assoc (t : List Char) (ts : List (List Char))
    (e : Expr) (es : List Expr) (n : Nat)
    (ht : '+' ∉ t) (hts : ∀ u ∈ ts, '+' ∉ u)
    (he : parseAtom (trimStr t) n = some e)
    (hes : List.Forall₂ (fun u r => parseAtom (trimStr u) n = some r) ts es) :
    parseExpr (joinPlus (t :: ts)) n
      = some (es.foldl (fun acc r => mkAdd acc r n) e) := by
  have hsplit := splitPlus_joinPlus t ts ht hts
  cases hes with
  | nil =>
    simp only [parseExpr, hsplit, List.map_cons, List.map_nil, he, List.foldl_nil]
  | cons hu hrest =>
    simp only [parseExpr, hsplit, List.map_cons, he, List.foldl_cons]
    simpa only [parseExprGo, hu, List.foldl_cons] using
      parseExprGo_foldl _ _ _ n (List.Forall₂.cons hu hrest)

/-- Witness for C7 at the concrete text `a + b + c`. -/
theorem parseExpr_left_assoc_witness :
    parseExpr "a + b + c".data 1
      = some (.BinaryAdd
          (.BinaryAdd
            (.Ident "a".data (SourceSpan.single_line 1 1 1))
            (.Ident "b".data (SourceSpan.single_line 1 1 1))
            (SourceSpan.single_line 1 1 1))
          (.Ident "c".data (SourceSpan.single_line 1 1 1))
          (SourceSpan.single_line 1 1 1)) := by
  have h := parseExpr_left_assoc "a ".data [" b ".data, " c".data]
    (.Ident "a".data (SourceSpan.single_line 1 1 1))
    [.Ident "b".data (SourceSpan.single_line 1 1 1),
     .Ident "c".data (SourceSpan.single_line 1 1 1)] 1
    (by decide) (by decide) (by decide)
    (List.Forall₂.cons (by decide) (List.Forall₂.cons (by decide) List.Forall₂.nil))
  have hjoin : joinPlus ["a ".data, " b ".data, " c".data] = "a + b + c".data := by decide
  rw [hjoin] at h
  exact h.trans (by decide)

theorem mkAdd_eq_addSpanRule (e r : Expr) (n : Nat) :
    mkAdd e r n = .BinaryAdd e r (addSpanRule e r n) := by
  cases e <;> cases r <;> rfl

theorem parseAtom_spanRuleOK (p : List Char) (n : Nat) (e : Expr)
    (h : parseAtom p n = some e) : SpanRuleOK n e := by
  unfold parseAtom at h
  split at h
  · cases h; trivial
  · split at h
    · cases h; trivial
    · split at h
      · cases h; trivial
      · cases h

theorem parseExprGo_spanRuleOK (parts : List (List Char)) (e out : Expr) (n : Nat)
    (he : SpanRuleOK n e) (h : parseExprGo e parts n = some out) : SpanRuleOK n out := by
  induction parts generalizing e with
  | nil => cases h; exact he
  | cons p rest ih =>
    simp only [parseExprGo] at h
    split at h
    · cases h
    · next rhs hr =>
      refine ih (mkAdd e rhs n) ?_ h
      rw [mkAdd_eq_addSpanRule]
      exact ⟨rfl, he, parseAtom_spanRuleOK p n rhs hr⟩

/-- C8 counterexample: parsing `"a" + "bc"` builds a `BinaryAdd` whose
span (columns 1–4) is not the span of its left operand (columns 1–3). -/
theorem binaryAdd_span_counterexample :
    parseExpr "\"a\" + \"bc\"".data 1
      = some (.BinaryAdd
          (.StringLit ['a'] (SourceSpan.single_line 1 1 3))
          (.StringLit ['b', 'c'] (SourceSpan.single_line 1 1 4))
          (SourceSpan.single_line 1 1 4)) ∧
    SourceSpan.single_line 1 1 4
      ≠ spanOf (.StringLit ['a'] (SourceSpan.single_line 1 1 3)) := by
  decide

/-- C8 amended: every `BinaryAdd` node built by `parse_expr` carries the
span `addSpanRule` assigns it — the left operand's span, except that a
string-literal pair spans from the left literal's start column to the
right literal's end column. -/
theorem parseExpr_span_rule (s : List Char) (n : Nat) (e : Expr)
    (h : parseExpr s n = some e) : SpanRuleOK n e := by
  unfold parseExpr at h
  rcases hm : (splitPlus s).map trimStr with _ | ⟨p, _ | ⟨q, rest⟩⟩
  · rw [hm] at h; cases h
  · rw [hm] at h; exact parseAtom_spanRuleOK _ n e h
  · rw [hm] at h
    have h2 : (match parseAtom p n with
        | none => none
        | some e0 => parseExprGo e0 (q :: rest) n) = some e := h
    cases h0 : parseAtom p n with
    | none => rw [h0] at h2; cases h2
    | some e0 =>
      rw [h0] at h2
      exact parseExprGo_spanRuleOK (q :: rest) e0 e n (parseAtom_spanRuleOK p n e0 h0) h2

/-- Witness for the amended C8 theorem at `"a" + "bc"`. -/
theorem parseExpr_span_rule_witness :
    SpanRuleOK 1
      (.BinaryAdd
        (.StringLit ['a'] (SourceSpan.single_line 1 1 3))
        (.StringLit ['b', 'c'] (SourceSpan.single_line 1 1 4))
        (SourceSpan.single_line 1 1 4)) :=
  parseExpr_span_rule "\"a\" + \"bc\"".data 1 _ (by decide)

theorem foldl_digitStep_none (l : List Char) : l.foldl digitStep none = none := by
  induction l with
  | nil => rfl
  | cons c cs ih => simpa [digitStep] using ih

theorem trimStr_quote (a : List Char) : trimStr ('"' :: a) = '"' :: trimRight a := by
  show trimRight (List.dropWhile isWs ('"' :: a)) = _
  rw [List.dropWhile_cons]
  simp only [show isWs '"' = false from rfl, Bool.false_eq_true, if_false]
  show (('"' :: a).reverse.dropWhile isWs).reverse = _
  rw [show ('"' :: a).reverse = a.reverse ++ ['"'] by simp, List.dropWhile_append]
  split
  · next hemp =>
    rw [List.isEmpty_iff] at hemp
    simp [trimRight, hemp, show isWs '"' = false from rfl]
  · simp [trimRight]

theorem mem_trimRight (a : List Char) (c : Char) (h : c ∈ trimRight a) : c ∈ a := by
  unfold trimRight at h
  rw [List.mem_reverse] at h
  exact List.mem_reverse.mp ((List.dropWhile_sublist isWs).subset h)

theorem parseAtom_quote_fragment (tra : List Char) (n : Nat) (hq : '"' ∉ tra) :
    parseAtom ('"' :: tra) n = none := by
  cases tra with
  | nil => rfl
  | cons c cs =>
    have hne : ∀ d ∈ c :: cs, d ≠ '"' := fun d hd he => hq (he ▸ hd)
    unfold parseAtom
    rcases hl : (c :: cs).getLast? with _ | d
    · exact absurd (List.getLast?_eq_none_iff.mp hl) (List.cons_ne_nil c cs)
    · have hd : d ≠ '"' := hne d (List.mem_of_getLast?_eq_some hl)
      rw [if_neg (by simp [hl, hd])]
      have hpd : parseDigits ('"' :: c :: cs) = none := by
        show (if ('"' :: c :: cs).isEmpty = true then none
            else ('"' :: c :: cs).foldl digitStep (some 0)) = none
        rw [if_neg (by simp)]
        show (c :: cs).foldl digitStep (digitStep (some 0) '"') = none
        rw [show digitStep (some 0) '"' = none from rfl]
        exact foldl_digitStep_none _
      have hint : parseI64 ('"' :: c :: cs) = none := by
        show (parseDigits ('"' :: c :: cs)).bind _ = none
        rw [hpd]
        rfl
      rw [hint]
      rw [if_neg (by simp [isIdent])]

theorem parseExpr_first_atom_none (s t : List Char) (rest : List (List Char)) (n : Nat)
    (hm : (splitPlus s).map trimStr = t :: rest) (ht : parseAtom t n = none) :
    parseExpr s n = none := by
  unfold parseExpr
  rw [hm]
  cases rest with
  | nil => exact ht
  | cons q qs =>
    have h2 : (match parseAtom t n with
        | none => none
        | some e => parseExprGo e (q :: qs) n) = (none : Option Expr) := by rw [ht]
    exact h2

/-- C10: a right-hand side that opens with a double-quoted string literal
containing a `+` inside the quotes is split at that `+` before
string-literal recognition, so the leading fragment `"a` fails to parse as
any atom and the whole expression parse fails. -/
theorem stringLit_with_plus_fails (a b : List Char) (n : Nat)
    (ha : '+' ∉ a) (hq : '"' ∉ a) :
    parseAtom (trimStr ('"' :: a)) n = none ∧
    parseExpr ('"' :: (a ++ '+' :: b)) n = none := by
  have hq2 : '"' ∉ trimRight a := fun hmem => hq (mem_trimRight a '"' hmem)
  have hatom : parseAtom (trimStr ('"' :: a)) n = none := by
    rw [trimStr_quote]
    exact parseAtom_quote_fragment _ n hq2
  refine ⟨hatom, ?_⟩
  have hplus : '+' ∉ '"' :: a := by
    intro hmem
    rcases List.mem_cons.mp hmem with h1 | h2
    · exact absurd h1 (by decide)
    · exact ha h2
  have hsplit : splitPlus ('"' :: (a ++ '+' :: b)) = ('"' :: a) :: splitPlus b := by
    show splitPlus (('"' :: a) ++ '+' :: b) = _
    exact splitPlus_append ('"' :: a) b hplus
  rcases hb : splitPlus b with _ | ⟨q, qs⟩
  · exact absurd hb (splitPlus_ne_nil b)
  · exact parseExpr_first_atom_none _ _ (trimStr q :: qs.map trimStr) n
      (by rw [hsplit, hb]; rfl) hatom

/-- Witness for C10 at the concrete right-hand side `"a+b"`. -/
theorem stringLit_with_plus_fails_witness :
    parseAtom (trimStr ('"' :: ['a'])) 1 = none ∧
    parseExpr "\"a+b\"".data 1 = none := by
  have h := stringLit_with_plus_fails ['a'] ['b', '"'] 1 (by decide) (by decide)
  have heq : '"' :: (['a'] ++ '+' :: ['b', '"']) = "\"a+b\"".data := by decide
  rw [heq] at h
  exact h

/-! ## Association-list (HashMap model) lemmas -/

theorem lookupA_insertA {α : Type} (t : List (List Char × α)) (k n : List Char) (v : α) :
    lookupA (insertA t k v) n = if k = n then some v else lookupA t n := by
  by_cases h : k = n
  · simp [lookupA, insertA, List.find?_cons_of_pos, h]
  · simp [lookupA, insertA, List.find?_cons_of_neg, h]

theorem lookupA_eraseKey_ne {α : Type} (t : List (List Char × α)) (k n : List Char)
    (h : k ≠ n) : lookupA (eraseKey t k) n = lookupA t n := by
  induction t with
  | nil => rfl
  | cons p rest ih =>
    by_cases hpk : p.1 = k
    · have hdrop : eraseKey (p :: rest) k = eraseKey rest k := by
        simp [eraseKey, List.filter_cons, hpk]
      have hpn : ¬((fun q => q.1 == n) p) = true := by
        simp only [beq_iff_eq, hpk]
        exact h
      rw [hdrop, ih]
      show lookupA rest n = (List.find? (fun q => q.1 == n) (p :: rest)).map (·.2)
      rw [@List.find?_cons_of_neg _ (fun q => q.1 == n) p rest hpn]
      rfl
    · have hkeep : eraseKey (p :: rest) k = p :: eraseKey rest k := by
        simp only [eraseKey, List.filter_cons]
        rw [if_pos (by simpa using hpk)]
      rw [hkeep]
      by_cases hpn : p.1 = n
      · have hp : ((fun q => q.1 == n) p) = true := by simpa using hpn
        show (List.find? (fun q => q.1 == n) (p :: eraseKey rest k)).map (·.2)
          = (List.find? (fun q => q.1 == n) (p :: rest)).map (·.2)
        rw [@List.find?_cons_of_pos _ (fun q => q.1 == n) p (eraseKey rest k) hp,
          @List.find?_cons_of_pos _ (fun q => q.1 == n) p rest hp]
      · have hp : ¬((fun q => q.1 == n) p) = true := by simpa using hpn
        show (List.find? (fun q => q.1 == n) (p :: eraseKey rest k)).map (·.2)
          = (List.find? (fun q => q.1 == n) (p :: rest)).map (·.2)
        rw [@List.find?_cons_of_neg _ (fun q => q.1 == n) p (eraseKey rest k) hp,
          @List.find?_cons_of_neg _ (fun q => q.1 == n) p rest hp]
        exact ih

theorem lookupA_insertOver {α : Type} (t : List (List Char × α)) (k n : List Char) (v : α) :
    lookupA (insertOver t k v) n = if k = n then some v else lookupA t n := by
  by_cases h : k = n
  · simp [lookupA, insertOver, List.find?_cons_of_pos, h]
  · rw [if_neg h]
    show lookupA (insertA (eraseKey t k) k v) n = _
    rw [lookupA_insertA, if_neg h, lookupA_eraseKey_ne t k n h]

/-! ## Semantic-analysis lemmas -/

theorem pass1_append (pre suf : List Stmt) :
    pass1 (pre ++ suf) = pass1From (pass1 pre) suf := by
  unfold pass1 pass1From
  rw [List.foldl_append]

theorem pass2From_append (acc : Table × List SemErr) (pre suf : List Stmt) :
    pass2From acc (pre ++ suf) = pass2From (pass2From acc pre) suf := by
  unfold pass2From
  rw [List.foldl_append]

/-- C1: the Pass 1 case analysis, at the point any prefix of the program
has been processed.  A `$` assignment inserts `Mutable` when the name is
absent and otherwise records a duplicate-declaration error leaving the
table unchanged; a plain assignment inserts `Immutable` when absent,
records an assignment-to-immutable error when the entry is `Immutable`,
and changes nothing when the entry is `Mutable`. -/
theorem pass1_assign_cases (pre : List Stmt) (name : List Char)
    (e : Expr) (sp nsp : SourceSpan) :
    (lookupA (pass1Vars pre) name = none →
        pass1 (pre ++ [.Assign name true e sp nsp])
          = (insertA (pass1Vars pre) name .Mutable, pass1Errs pre)
      ∧ pass1 (pre ++ [.Assign name false e sp nsp])
          = (insertA (pass1Vars pre) name .Immutable, pass1Errs pre)) ∧
    (∀ m, lookupA (pass1Vars pre) name = some m →
        pass1 (pre ++ [.Assign name true e sp nsp])
          = (pass1Vars pre, pass1Errs pre ++ [.Redeclare name nsp])) ∧
    (lookupA (pass1Vars pre) name = some .Immutable →
        pass1 (pre ++ [.Assign name false e sp nsp])
          = (pass1Vars pre, pass1Errs pre ++ [.AssignImmutable name nsp])) ∧
    (lookupA (pass1Vars pre) name = some .Mutable →
        pass1 (pre ++ [.Assign name false e sp nsp])
          = (pass1Vars pre, pass1Errs pre)) := by
  have hstep : ∀ d : Bool, pass1 (pre ++ [Stmt.Assign name d e sp nsp])
      = pass1Step (pass1 pre) (.Assign name d e sp nsp) := by
    intro d
    rw [pass1_append]
    rfl
  refine ⟨fun h => ⟨?_, ?_⟩, fun m hm => ?_, fun h => ?_, fun h => ?_⟩
  · rw [hstep]
    simp only [pass1Step]
    rw [show lookupA (pass1 pre).1 name = none from h]
    simp
  · rw [hstep]
    simp only [pass1Step]
    rw [show lookupA (pass1 pre).1 name = none from h]
    simp
  · rw [hstep]
    simp only [pass1Step]
    rw [show lookupA (pass1 pre).1 name = some m from hm]
    simp
  · rw [hstep]
    simp only [pass1Step]
    rw [show lookupA (pass1 pre).1 name = some .Immutable from h]
    simp
  · rw [hstep]
    simp only [pass1Step]
    rw [show lookupA (pass1 pre).1 name = some .Mutable from h]
    simp

/-- Witness for C1: after `x = 1`, the `$`-redeclaration `$x = 2` records
a duplicate-declaration error and leaves the table unchanged. -/
theorem pass1_assign_cases_witness :
    pass1 ([stmtXimm] ++ [.Assign "x".data true (.IntLit 2 (SourceSpan.single_line 2 6 6))
        (SourceSpan.single_line 2 1 6) (SourceSpan.single_line 2 2 2)])
      = ([("x".data, .Immutable)],
         [.Redeclare "x".data (SourceSpan.single_line 2 2 2)]) := by
  have h := (pass1_assign_cases [stmtXimm] "x".data
    (.IntLit 2 (SourceSpan.single_line 2 6 6)) (SourceSpan.single_line 2 1 6)
    (SourceSpan.single_line 2 2 2)).2.1 .Immutable (by decide)
  exact h.trans (by decide)

theorem pass1From_lookup (stmts : List Stmt) (acc : Table × List SemErr) (n : List Char) :
    lookupA (pass1From acc stmts).1 n
      = (lookupA acc.1 n).or ((firstDeclMut stmts n).map mutOfDecl) := by
  induction stmts generalizing acc with
  | nil =>
    show lookupA acc.1 n = (lookupA acc.1 n).or none
    cases lookupA acc.1 n <;> rfl
  | cons s rest ih =>
    show lookupA (pass1From (pass1Step acc s) rest).1 n = _
    rw [ih]
    cases s with
    | Print _ _ => rfl
    | Assign m d e sp nsp =>
      by_cases hmn : m = n
      · subst hmn
        cases hx : lookupA acc.1 m with
        | none =>
          have hstep : (pass1Step acc (.Assign m d e sp nsp)).1 = insertA acc.1 m (mutOfDecl d) := by
            cases d <;> simp [pass1Step, hx, mutOfDecl]
          rw [hstep, lookupA_insertA, if_pos rfl]
          simp [firstDeclMut]
        | some m0 =>
          have hstep : (pass1Step acc (.Assign m d e sp nsp)).1 = acc.1 := by
            cases d
            · cases m0 <;> simp [pass1Step, hx]
            · simp [pass1Step, hx]
          rw [hstep, hx]
          simp [firstDeclMut]
      · have hlook : lookupA (pass1Step acc (.Assign m d e sp nsp)).1 n = lookupA acc.1 n := by
          cases hx : lookupA acc.1 m with
          | none =>
            have hstep : (pass1Step acc (.Assign m d e sp nsp)).1
                = insertA acc.1 m (mutOfDecl d) := by
              cases d <;> simp [pass1Step, hx, mutOfDecl]
            rw [hstep, lookupA_insertA, if_neg hmn]
          | some m0 =>
            have hstep : (pass1Step acc (.Assign m d e sp nsp)).1 = acc.1 := by
              cases d
              · cases m0 <;> simp [pass1Step, hx]
              · simp [pass1Step, hx]
            rw [hstep]
        rw [hlook]
        simp [firstDeclMut, hmn]

/-- C3: the symbol table maps each name to the mutability of its first
assignment (`$` gives `Mutable`, plain gives `Immutable`; a name never
assigned is absent), and an entry present after any prefix of the
statements is identical after the full pass. -/
theorem pass1Vars_first_assignment :
    (∀ (stmts : List Stmt) (n : List Char),
        lookupA (pass1Vars stmts) n = (firstDeclMut stmts n).map mutOfDecl) ∧
    (∀ (pre suf : List Stmt) (n : List Char) (m : Mutability),
        lookupA (pass1Vars pre) n = some m →
        lookupA (pass1Vars (pre ++ suf)) n = some m) := by
  constructor
  · intro stmts n
    show lookupA (pass1From ([], []) stmts).1 n = _
    rw [pass1From_lookup]
    rfl
  · intro pre suf n m h
    show lookupA (pass1 (pre ++ suf)).1 n = some m
    rw [pass1_append, pass1From_lookup, show lookupA (pass1 pre).1 n = some m from h]
    rfl

/-- Witness for C3: with program `x = 1` then `$x = 2`, the entry for `x`
present after the first statement (`Immutable`) is unchanged after the
full pass. -/
theorem pass1Vars_first_assignment_witness :
    lookupA (pass1Vars ([stmtXimm] ++ [stmtXmut])) "x".data = some .Immutable :=
  pass1Vars_first_assignment.2 [stmtXimm] [stmtXmut] "x".data .Immutable (by decide)

theorem pass2Step_lookup (acc : Table × List SemErr) (s : Stmt) (n : List Char)
    (m : Mutability) (h : lookupA acc.1 n = some m) :
    ∃ m2, lookupA (pass2Step acc s).1 n = some m2
      ∧ (isMutAssignTo n s = false → m2 = m) := by
  cases s with
  | Print _ _ => exact ⟨m, h, fun _ => rfl⟩
  | Assign t d e sp nsp =>
    cases d with
    | true =>
      by_cases htn : t = n
      · refine ⟨.Mutable, ?_, ?_⟩
        · show lookupA (insertOver acc.1 t .Mutable) n = some .Mutable
          rw [lookupA_insertOver, if_pos htn]
        · intro hc
          exact absurd hc (by simp [isMutAssignTo, htn])
      · refine ⟨m, ?_, fun _ => rfl⟩
        show lookupA (insertOver acc.1 t .Mutable) n = some m
        rw [lookupA_insertOver, if_neg htn]
        exact h
    | false =>
      by_cases hs : (lookupA acc.1 t).isSome
      · refine ⟨m, ?_, fun _ => rfl⟩
        show lookupA (if (lookupA acc.1 t).isSome then (acc.1, collectUndefined e acc.1 acc.2)
            else (insertA acc.1 t .Immutable, collectUndefined e acc.1 acc.2)).1 n = some m
        rw [if_pos hs]
        exact h
      · have htn : t ≠ n := fun he => hs (by rw [he, h]; rfl)
        refine ⟨m, ?_, fun _ => rfl⟩
        show lookupA (if (lookupA acc.1 t).isSome then (acc.1, collectUndefined e acc.1 acc.2)
            else (insertA acc.1 t .Immutable, collectUndefined e acc.1 acc.2)).1 n = some m
        rw [if_neg hs, lookupA_insertA, if_neg htn]
        exact h

theorem pass2From_lookup_mono (suf : List Stmt) (acc : Table × List SemErr)
    (n : List Char) (m : Mutability) (h : lookupA acc.1 n = some m) :
    ∃ m2, lookupA (pass2From acc suf).1 n = some m2
      ∧ ((∀ s ∈ suf, isMutAssignTo n s = false) → m2 = m) := by
  induction suf generalizing acc m with
  | nil => exact ⟨m, h, fun _ => rfl⟩
  | cons s rest ih =>
    obtain ⟨m1, h1, hc1⟩ := pass2Step_lookup acc s n m h
    obtain ⟨m2, h2, hc2⟩ := ih (pass2Step acc s) m1 h1
    refine ⟨m2, h2, fun hall => ?_⟩
    rw [hc2 (fun t ht => hall t (List.mem_cons_of_mem s ht)),
      hc1 (hall s (List.mem_cons_self s rest))]

/-- C9 counterexample: with `x = 1` then `$x = 2`, the Pass 2 running map
records `x ↦ Immutable` after the first statement, but processing the
later `$`-marked assignment overwrites it to `Mutable`. -/
theorem pass2_decl_overwrite_counterexample :
    lookupA (pass2Decl [stmtXimm]) "x".data = some .Immutable ∧
    lookupA (pass2Decl [stmtXimm, stmtXmut]) "x".data = some .Mutable ∧
    Mutability.Immutable ≠ Mutability.Mutable := by
  decide

/-- C9 amended: once a name is in the Pass 2 running map it stays in the
map after every later statement, and its recorded mutability is unchanged
provided no later `$`-marked assignment targets it (a later `$`-marked
assignment overwrites the recorded mutability with `Mutable`; only
membership is ever consulted by Pass 2). -/
theorem pass2_decl_first_occurrence (pre suf : List Stmt) (n : List Char)
    (m : Mutability) (h : lookupA (pass2Decl pre) n = some m) :
    (∃ m2, lookupA (pass2Decl (pre ++ suf)) n = some m2) ∧
    ((∀ s ∈ suf, isMutAssignTo n s = false) →
      lookupA (pass2Decl (pre ++ suf)) n = some m) := by
  have hmono := pass2From_lookup_mono suf (pass2From ([], []) pre) n m h
  obtain ⟨m2, h2, hc⟩ := hmono
  have happ : pass2Decl (pre ++ suf) = (pass2From (pass2From ([], []) pre) suf).1 := by
    show (pass2From ([], []) (pre ++ suf)).1 = _
    rw [pass2From_append]
  constructor
  · exact ⟨m2, by rw [happ]; exact h2⟩
  · intro hall
    rw [happ, h2, hc hall]

/-- Witness for the amended C9 theorem: `x` declared at `x = 1` stays
`Immutable` across a later `print` statement. -/
theorem pass2_decl_first_occurrence_witness :
    (∃ m2, lookupA (pass2Decl ([stmtXimm] ++ [stmtPrintHello])) "x".data = some m2) ∧
    ((∀ s ∈ [stmtPrintHello], isMutAssignTo "x".data s = false) →
      lookupA (pass2Decl ([stmtXimm] ++ [stmtPrintHello])) "x".data = some .Immutable) :=
  pass2_decl_first_occurrence [stmtXimm] [stmtPrintHello] "x".data .Immutable (by decide)

theorem collectUndefined_append (e : Expr) (d : Table) (errs : List SemErr) :
    collectUndefined e d errs = errs ++ collectUndefined e d [] := by
  induction e generalizing errs with
  | StringLit s sp => simp [collectUndefined]
  | IntLit v sp => simp [collectUndefined]
  | Ident n sp =>
    by_cases h : (lookupA d n).isNone = true
    · simp [collectUndefined, h]
    · simp [collectUndefined, h]
  | BinaryAdd a b sp iha ihb =>
    calc collectUndefined b d (collectUndefined a d errs)
        = collectUndefined a d errs ++ collectUndefined b d [] := ihb _
      _ = (errs ++ collectUndefined a d []) ++ collectUndefined b d [] := by rw [iha]
      _ = errs ++ (collectUndefined a d [] ++ collectUndefined b d []) := by
          rw [List.append_assoc]
      _ = errs ++ collectUndefined (.BinaryAdd a b sp) d [] := by
          rw [show collectUndefined (.BinaryAdd a b sp) d []
              = collectUndefined a d [] ++ collectUndefined b d [] from ihb _]

theorem collectUndefined_filter (e : Expr) (d : Table) :
    collectUndefined e d []
      = ((identsOf e).filter (fun q => (lookupA d q.1).isNone)).map
          (fun q => .Undefined q.1 q.2) := by
  induction e with
  | StringLit s sp => rfl
  | IntLit v sp => rfl
  | Ident n sp =>
    by_cases h : (lookupA d n).isNone = true
    · simp [collectUndefined, identsOf, h]
    · simp [collectUndefined, identsOf, h]
  | BinaryAdd a b sp iha ihb =>
    show collectUndefined b d (collectUndefined a d []) = _
    rw [collectUndefined_append, iha, ihb, identsOf, List.filter_append, List.map_append]

theorem pass2Step_errs (acc : Table × List SemErr) (n : List Char) (d : Bool)
    (e : Expr) (sp nsp : SourceSpan) :
    (pass2Step acc (.Assign n d e sp nsp)).2 = collectUndefined e acc.1 acc.2 := by
  cases d
  · show (if (lookupA acc.1 n).isSome then (acc.1, collectUndefined e acc.1 acc.2)
        else (insertA acc.1 n .Immutable, collectUndefined e acc.1 acc.2)).2 = _
    split <;> rfl
  · rfl

theorem pass2From_errs_spec (stmts : List Stmt) (acc : Table × List SemErr)
    (seen : List (List Char))
    (hinv : ∀ k, (lookupA acc.1 k).isSome = seen.contains k) :
    (pass2From acc stmts).2 = acc.2 ++ undefinedSpec seen stmts := by
  induction stmts generalizing acc seen with
  | nil => simp [pass2From, undefinedSpec]
  | cons s rest ih =>
    cases s with
    | Print c sp =>
      show (pass2From acc rest).2 = _
      exact ih acc seen hinv
    | Assign n d e sp nsp =>
      have hpred : ∀ q ∈ identsOf e, (lookupA acc.1 q.1).isNone = !(seen.contains q.1) := by
        intro q _
        rw [← hinv q.1]
        cases lookupA acc.1 q.1 <;> rfl
      have herrstep : (pass2Step acc (.Assign n d e sp nsp)).2
          = acc.2 ++ ((identsOf e).filter (fun q => !(seen.contains q.1))).map
              (fun q => .Undefined q.1 q.2) := by
        rw [pass2Step_errs, collectUndefined_append, collectUndefined_filter,
          List.filter_congr hpred]
      have hinv2 : ∀ k, (lookupA (pass2Step acc (.Assign n d e sp nsp)).1 k).isSome
          = (seen ++ [n]).contains k := by
        intro k
        have hcontains : (seen ++ [n]).contains k = (seen.contains k || (k == n)) := by
          simp only [List.contains_eq_any_beq, List.any_append]
          by_cases hkn : k = n <;> simp [hkn]
        rw [hcontains, ← hinv k]
        cases d with
        | true =>
          show (lookupA (insertOver acc.1 n .Mutable) k).isSome = _
          rw [lookupA_insertOver]
          by_cases hkn : n = k
          · rw [if_pos hkn]
            subst hkn
            simp
          · rw [if_neg hkn]
            rw [show (k == n) = false from by simp; exact fun hh => hkn hh.symm]
            simp
        | false =>
          show (lookupA (if (lookupA acc.1 n).isSome
              then (acc.1, collectUndefined e acc.1 acc.2)
              else (insertA acc.1 n .Immutable, collectUndefined e acc.1 acc.2)).1 k).isSome = _
          by_cases hs : (lookupA acc.1 n).isSome
          · rw [if_pos hs]
            by_cases hkn : k = n
            · subst hkn
              simp [hs]
            · rw [show (k == n) = false from by simpa using hkn]
              simp
          · rw [if_neg hs, lookupA_insertA]
            by_cases hkn : n = k
            · rw [if_pos hkn]
              subst hkn
              have hf : (lookupA acc.1 n).isSome = false := by simpa using hs
              simp [hf]
            · rw [if_neg hkn]
              rw [show (k == n) = false from by simp; exact fun hh => hkn hh.symm]
              simp
      show (pass2From (pass2Step acc (.Assign n d e sp nsp)) rest).2 = _
      rw [ih _ _ hinv2, herrstep, List.append_assoc]
      rfl

theorem pass2Errs_spec (p : Program) : pass2Errs p = undefinedSpec [] p := by
  show (pass2From ([], []) p).2 = _
  rw [pass2From_errs_spec p ([], []) [] (fun k => rfl)]
  rfl

theorem pass1From_no_undef (stmts : List Stmt) (acc : Table × List SemErr)
    (h : acc.2.all (fun er => !(isUndefErr er)) = true) :
    (pass1From acc stmts).2.all (fun er => !(isUndefErr er)) = true := by
  induction stmts generalizing acc with
  | nil => exact h
  | cons s rest ih =>
    refine ih (pass1Step acc s) ?_
    cases s with
    | Print c sp => exact h
    | Assign n d e sp nsp =>
      cases hx : lookupA acc.1 n with
      | none => cases d <;> simp [pass1Step, hx, h]
      | some m0 =>
        have hall : ∀ er : SemErr, isUndefErr er = false →
            ((acc.2 ++ [er]).all fun x => !isUndefErr x) = true := by
          intro er her
          rw [List.all_append, h]
          simp [her]
        cases d with
        | false =>
          cases m0 with
          | Immutable =>
            have hstep : (pass1Step acc (Stmt.Assign n false e sp nsp)).2
                = acc.2 ++ [.AssignImmutable n nsp] := by simp [pass1Step, hx]
            rw [hstep]
            exact hall _ rfl
          | Mutable =>
            have hstep : (pass1Step acc (Stmt.Assign n false e sp nsp)).2 = acc.2 := by
              simp [pass1Step, hx]
            rw [hstep]
            exact h
        | true =>
          have hstep : (pass1Step acc (Stmt.Assign n true e sp nsp)).2
              = acc.2 ++ [.Redeclare n nsp] := by simp [pass1Step, hx]
          rw [hstep]
          exact hall _ rfl

/-- C2: Pass 2 records an undefined-variable error for exactly the
identifier occurrences (in order) whose name is not the target of any
strictly earlier assignment statement — `undefinedSpec` walks the
statements with the set of earlier assignment targets, and print
statements neither contribute targets nor are checked; Pass 1 never
records an undefined-variable error, so these are all of them. -/
theorem undefined_errors_characterization (p : Program) :
    pass2Errs p = undefinedSpec [] p ∧
    (pass1Errs p).all (fun er => !(isUndefErr er)) = true := by
  constructor
  · exact pass2Errs_spec p
  · exact pass1From_no_undef p ([], []) rfl

/-- C4: `check_semantics` returns the symbol table exactly when the two
passes discovered no error, and otherwise fails with the full aggregated
error list (Pass 1's errors followed by Pass 2's) — never a table
alongside errors, never a strict subset of the discovered errors. -/
theorem check_semantics_all_or_nothing (p : Program) :
    (checkSemantics p = .ok ⟨pass1Vars p⟩ ↔ allErrors p = []) ∧
    (allErrors p ≠ [] → checkSemantics p = .error (allErrors p)) := by
  have herr : (pass2From ([], (pass1From ([], []) p).2) p).2 = allErrors p := by
    rw [pass2From_errs_spec p ([], (pass1From ([], []) p).2) [] (fun k => rfl)]
    show pass1Errs p ++ undefinedSpec [] p = pass1Errs p ++ pass2Errs p
    rw [pass2Errs_spec]
  have hcheck : checkSemantics p
      = if (allErrors p).isEmpty then .ok ⟨pass1Vars p⟩ else .error (allErrors p) := by
    show (if (pass2From ([], (pass1From ([], []) p).2) p).2.isEmpty
        then Except.ok (⟨(pass1From ([], []) p).1⟩ : SemanticInfo)
        else Except.error (pass2From ([], (pass1From ([], []) p).2) p).2) = _
    rw [herr]
    rfl
  constructor
  · constructor
    · intro hok
      by_contra hne
      rw [hcheck, if_neg (by simpa [List.isEmpty_iff] using hne)] at hok
      exact Except.noConfusion hok
    · intro hnil
      rw [hcheck, if_pos (by simp [hnil])]
  · intro hne
    rw [hcheck, if_neg (by simpa [List.isEmpty_iff] using hne)]

/-- Witness for C4: `y = z + 1` with `z` undeclared makes
`check_semantics` fail with exactly the one undefined-variable error. -/
theorem check_semantics_all_or_nothing_witness :
    checkSemantics [stmtYfromZ]
      = .error [.Undefined "z".data (SourceSpan.single_line 5 5 5)] := by
  have h := (check_semantics_all_or_nothing [stmtYfromZ]).2 (by decide)
  exact h.trans (congrArg Except.error (by decide))

/-! ## Code-generation lemmas -/

theorem pass1From_allImm (stmts : List Stmt) (acc : Table × List SemErr)
    (hstmts : ∀ s ∈ stmts, declMutOf s = false) (hacc : allImmB acc.1 = true) :
    allImmB (pass1From acc stmts).1 = true := by
  induction stmts generalizing acc with
  | nil => exact hacc
  | cons s rest ih =>
    refine ih (pass1Step acc s) (fun t ht => hstmts t (List.mem_cons_of_mem s ht)) ?_
    cases s with
    | Print c sp => exact hacc
    | Assign n d e sp nsp =>
      have hd : d = false := hstmts _ (List.mem_cons_self _ rest)
      subst hd
      cases hx : lookupA acc.1 n with
      | none =>
        have hstep : (pass1Step acc (Stmt.Assign n false e sp nsp)).1
            = insertA acc.1 n .Immutable := by simp [pass1Step, hx]
        rw [hstep]
        show ((n, Mutability.Immutable) :: acc.1).all (fun pr => pr.2 == .Immutable) = true
        rw [List.all_cons]
        rw [show acc.1.all (fun pr => pr.2 == Mutability.Immutable) = true from hacc]
        rfl
      | some m0 =>
        have hstep : (pass1Step acc (Stmt.Assign n false e sp nsp)).1 = acc.1 := by
          cases m0 <;> simp [pass1Step, hx]
        rw [hstep]
        exact hacc

theorem lookupA_allImm (vars : Table) (n : List Char) (h : allImmB vars = true) :
    (lookupA vars n).getD .Immutable = .Immutable := by
  cases hx : lookupA vars n with
  | none => rfl
  | some m =>
    obtain ⟨pr, hfind⟩ : ∃ pr, List.find? (fun q => q.1 == n) vars = some pr := by
      cases hf : List.find? (fun q => q.1 == n) vars with
      | none => rw [lookupA, hf] at hx; cases hx
      | some pr => exact ⟨pr, rfl⟩
    have hm : pr.2 = m := by
      rw [lookupA, hfind] at hx
      exact Option.some.inj hx
    have hmem := List.mem_of_find?_eq_some hfind
    have := List.all_eq_true.mp h pr hmem
    have hImm : pr.2 = .Immutable := by simpa using this
    rw [← hm, hImm]
    rfl

theorem needsRc_allImm (vars : Table) (h : allImmB vars = true) :
    needsRc vars = false := by
  have hall := List.all_eq_true.mp h
  show vars.any (fun p => p.2 == .Mutable) = false
  cases hany : vars.any (fun p => p.2 == .Mutable) with
  | false => rfl
  | true =>
    obtain ⟨x, hx, hxm⟩ := List.any_eq_true.mp hany
    have h1 : x.2 = .Mutable := by simpa using hxm
    have h2 : x.2 = .Immutable := by simpa using hall x hx
    rw [h1] at h2
    exact absurd h2 (by decide)

theorem genStmtsGo_noCell (vars : Table) (h : allImmB vars = true)
    (stmts : List Stmt) (declared : List (List Char × Bool)) :
    noCellLines (genStmtsGo vars declared stmts) = true := by
  have hcons : ∀ (l : GenLine) (ls : List GenLine), isCellLine l = false →
      noCellLines ls = true → noCellLines (l :: ls) = true := by
    intro l ls hl hls
    rw [noCellLines, List.all_cons, hl]
    rw [show ls.all (fun x => !(isCellLine x)) = true from hls]
    rfl
  induction stmts generalizing declared with
  | nil => rfl
  | cons s rest ih =>
    cases s with
    | Print c sp =>
      show noCellLines (.PrintlnLine c :: genStmtsGo vars declared rest) = true
      exact hcons _ _ rfl (ih declared)
    | Assign n d e sp nsp =>
      have hmut := lookupA_allImm vars n h
      simp only [genStmtsGo]
      rw [hmut]
      cases hfirst : (lookupA declared n).isNone with
      | false =>
        cases d with
        | false => exact hcons _ _ rfl (ih declared)
        | true => exact hcons _ _ rfl (ih declared)
      | true =>
        cases d with
        | false => exact hcons _ _ rfl (ih (insertA declared n true))
        | true => exact hcons _ _ rfl (ih (insertA declared n true))

/-- C5: for a program whose assignments all have `declares_mutable =
false` (hence an all-`Immutable` symbol table), the generated code has no
`Rc`/`RefCell` import and no cell-initializing or cell-mutating line, and
the first assignment of a name lowers to a plain `let` binding. -/
theorem no_dollar_no_cells (p : Program)
    (h : ∀ s ∈ p, declMutOf s = false) :
    noCellLines (genLines p ⟨pass1Vars p⟩) = true ∧
    (∀ (declared : List (List Char × Bool)) (name : List Char) (e : Expr)
        (sp nsp : SourceSpan) (rest : List Stmt),
      lookupA declared name = none →
      genStmtsGo (pass1Vars p) declared (.Assign name false e sp nsp :: rest)
        = .LetBind name (genExpr e (pass1Vars p))
            :: genStmtsGo (pass1Vars p) (insertA declared name true) rest) := by
  have hImm : allImmB (pass1Vars p) = true := pass1From_allImm p ([], []) h rfl
  have hbody := genStmtsGo_noCell (pass1Vars p) hImm p []
  constructor
  · show noCellLines ((if needsRc (pass1Vars p) then [.UseRc, .UseRefCell] else [])
        ++ [.FnMainOpen] ++ genStmtsGo (pass1Vars p) [] p ++ [.FnMainClose]) = true
    rw [needsRc_allImm _ hImm]
    show ((GenLine.FnMainOpen :: genStmtsGo (pass1Vars p) [] p)
        ++ [GenLine.FnMainClose]).all (fun l => !(isCellLine l)) = true
    rw [List.all_append, List.all_cons]
    rw [show (genStmtsGo (pass1Vars p) [] p).all (fun l => !(isCellLine l)) = true from hbody]
    rfl
  · intro declared name e sp nsp rest hlook
    have hmut := lookupA_allImm (pass1Vars p) name hImm
    simp only [genStmtsGo]
    rw [hmut, hlook]
    rfl

/-- Witness for C5 at the concrete program `x = 1` then `print("hello")`. -/
theorem no_dollar_no_cells_witness :
    noCellLines (genLines [stmtXimm, stmtPrintHello]
      ⟨pass1Vars [stmtXimm, stmtPrintHello]⟩) = true :=
  (no_dollar_no_cells [stmtXimm, stmtPrintHello] (by decide)).1

theorem lookupA_of_mem_nodup {α : Type} (t : List (List Char × α)) (k : List Char) (v : α)
    (h : keysNodup t) (hm : (k, v) ∈ t) : lookupA t k = some v := by
  induction t with
  | nil => cases hm
  | cons p rest ih =>
    have hnd : p.1 ∉ rest.map Prod.fst ∧ (rest.map Prod.fst).Nodup := by
      have := h
      rw [keysNodup, List.map_cons, List.nodup_cons] at this
      exact this
    rcases List.mem_cons.mp hm with he | ht
    · rw [← he]
      show (List.find? (fun q => q.1 == k) ((k, v) :: rest)).map (·.2) = some v
      rw [List.find?_cons_of_pos _ (by simp)]
      rfl
    · have hk : p.1 ≠ k := by
        intro hcontra
        exact hnd.1 (hcontra ▸ (List.mem_map.mpr ⟨(k, v), ht, rfl⟩))
      show (List.find? (fun q => q.1 == k) (p :: rest)).map (·.2) = some v
      rw [List.find?_cons_of_neg _ (by simpa using hk)]
      exact ih hnd.2 ht

theorem mem_of_lookupA {α : Type} (t : List (List Char × α)) (k : List Char) (v : α)
    (h : lookupA t k = some v) : (k, v) ∈ t := by
  unfold lookupA at h
  cases hf : List.find? (fun q => q.1 == k) t with
  | none => rw [hf] at h; cases h
  | some pr =>
    rw [hf] at h
    have hk : pr.1 = k := by simpa using List.find?_some hf
    have hv : pr.2 = v := Option.some.inj h
    have hmem := List.mem_of_find?_eq_some hf
    have : pr = (k, v) := by
      rw [← hk, ← hv]
    exact this ▸ hmem

theorem needsRc_ext (v1 v2 : Table) (h1 : keysNodup v1) (h2 : keysNodup v2)
    (h : ∀ n, lookupA v1 n = lookupA v2 n) : needsRc v1 = needsRc v2 := by
  have hiff : ∀ (t : Table), keysNodup t →
      (needsRc t = true ↔ ∃ n, lookupA t n = some .Mutable) := by
    intro t ht
    constructor
    · intro hany
      obtain ⟨x, hx, hxm⟩ := List.any_eq_true.mp hany
      have hxv : x.2 = Mutability.Mutable := by simpa using hxm
      refine ⟨x.1, ?_⟩
      rw [← hxv]
      exact lookupA_of_mem_nodup t x.1 x.2 ht hx
    · rintro ⟨n, hn⟩
      exact List.any_eq_true.mpr ⟨(n, .Mutable), mem_of_lookupA t n .Mutable hn, by simp⟩
  cases hv1 : needsRc v1 <;> cases hv2 : needsRc v2
  · rfl
  · obtain ⟨n, hn⟩ := (hiff v2 h2).mp hv2
    have : needsRc v1 = true := (hiff v1 h1).mpr ⟨n, (h n).trans hn⟩
    rw [hv1] at this
    cases this
  · obtain ⟨n, hn⟩ := (hiff v1 h1).mp hv1
    have : needsRc v2 = true := (hiff v2 h2).mpr ⟨n, (h n).symm.trans hn⟩
    rw [hv2] at this
    cases this
  · rfl

theorem genExpr_ext (v1 v2 : Table) (h : ∀ n, lookupA v1 n = lookupA v2 n) (e : Expr) :
    genExpr e v1 = genExpr e v2 := by
  induction e with
  | StringLit s sp => rfl
  | IntLit v sp => rfl
  | Ident n sp =>
    show (match lookupA v1 n with
      | some .Mutable => '*' :: (n ++ ".borrow()".data)
      | _ => n) = _
    rw [h n]
    rfl
  | BinaryAdd a b sp iha ihb =>
    show '(' :: (genExpr a v1 ++ " + ".data ++ genExpr b v1 ++ [')']) = _
    rw [iha, ihb]
    rfl

theorem genStmtsGo_ext (v1 v2 : Table) (h : ∀ n, lookupA v1 n = lookupA v2 n)
    (stmts : List Stmt) (declared : List (List Char × Bool)) :
    genStmtsGo v1 declared stmts = genStmtsGo v2 declared stmts := by
  induction stmts generalizing declared with
  | nil => rfl
  | cons s rest ih =>
    cases s with
    | Print c sp =>
      show GenLine.PrintlnLine c :: genStmtsGo v1 declared rest = _
      rw [ih declared]
      rfl
    | Assign n d e sp nsp =>
      simp only [genStmtsGo]
      rw [h n, genExpr_ext v1 v2 h e, ih declared, ih (insertA declared n true)]

/-- C6: code generation is deterministic — two runs of `generate_rust` on
the same program and the same symbol table (duplicate-free tables looked
up identically) produce byte-identical output text. -/
theorem generate_rust_deterministic (p : Program) (v1 v2 : Table)
    (h1 : keysNodup v1) (h2 : keysNodup v2)
    (h : ∀ n, lookupA v1 n = lookupA v2 n) :
    generateRust p ⟨v1⟩ = generateRust p ⟨v2⟩ := by
  have hl : genLines p ⟨v1⟩ = genLines p ⟨v2⟩ := by
    show (if needsRc v1 then [GenLine.UseRc, GenLine.UseRefCell] else [])
        ++ [GenLine.FnMainOpen] ++ genStmtsGo v1 [] p ++ [GenLine.FnMainClose]
      = (if needsRc v2 then [GenLine.UseRc, GenLine.UseRefCell] else [])
        ++ [GenLine.FnMainOpen] ++ genStmtsGo v2 [] p ++ [GenLine.FnMainClose]
    rw [needsRc_ext v1 v2 h1 h2 h, genStmtsGo_ext v1 v2 h p []]
  show (genLines p ⟨v1⟩).flatMap renderLine = (genLines p ⟨v2⟩).flatMap renderLine
  rw [hl]

/-- Witness for C6 at a concrete program and table. -/
theorem generate_rust_deterministic_witness :
    generateRust [stmtXmut, stmtXinc] ⟨[("x".data, .Mutable)]⟩
      = generateRust [stmtXmut, stmtXinc] ⟨[("x".data, .Mutable)]⟩ :=
  generate_rust_deterministic [stmtXmut, stmtXinc]
    [("x".data, .Mutable)] [("x".data, .Mutable)]
    (by decide) (by decide) (fun n => rfl)

end Kairo
